import Mathlib

/-!
# wechat-server: code store and forwarding selection

A shallow embedding of `store/memory.go` (the in-memory verification-code
store) and of the filtering and selection logic of `handler/forwarder.go`,
together with the properties established about them.

Conventions of the embedding:

* a Go `map[string]V` is an association list `List (String × V)` with the
  operations `mapGet`, `mapDelete` and `mapSet`; `mapSet` removes an existing
  binding first, so a map built by these operations has pairwise distinct keys;
* the store methods run under `s.mu`, so each one is an atomic state
  transformer `MemoryStore → MemoryStore × result`;
* `time.Time` values are instants on one integer time line (nanoseconds);
  every call of `time.Now()` is an explicit clock-reading argument and
  `Time.Add` is addition on that line;
* Go `int` / `int64` are `Int` with explicit wrap-around (`wrapInt64`) where the
  code does arithmetic on them;
* a runtime panic is the result `none`; `make` panics on a negative size and on
  a size above the runtime's limit `maxAlloc`, and an allocation within that
  limit succeeds (exhaustion of physical memory is outside the model);
* the bytes delivered by `crypto/rand` are a stream `Nat → Nat`, read modulo 256;
* a response body is held as its text (a `String`), `strings.TrimSpace` removes
  the white space of `unicode.IsSpace`; `strings.ToLower` lowers the ASCII
  letters itself and maps every other character through the case table of
  package `unicode`, which is a parameter `caseTable`.
-/

namespace WechatServer

/-! ## Go maps -/

/-- Map lookup `m[k]` with the comma-ok result. -/
def mapGet {V : Type} : List (String × V) → String → Option V
  | [], _ => none
  | (k', v) :: rest, k => if k' = k then some v else mapGet rest k

/-- The builtin `delete(m, k)`. -/
def mapDelete {V : Type} (m : List (String × V)) (k : String) : List (String × V) :=
  m.filter (fun p => decide (p.1 ≠ k))

/-- The assignment `m[k] = v`. -/
def mapSet {V : Type} (m : List (String × V)) (k : String) (v : V) : List (String × V) :=
  (k, v) :: mapDelete m k

/-! ## Machine integers and time -/

/-- Two's-complement wrap-around of a 64-bit signed integer. -/
def wrapInt64 (x : Int) : Int := (x + 2 ^ 63) % 2 ^ 64 - 2 ^ 63

/-- The largest Go `int` on a 64-bit platform. -/
def maxInt64 : Int := 2 ^ 63 - 1

/-- The call `t.After(u)`: strictly later. -/
def After (t u : Int) : Bool := decide (u < t)

/-- The constant `time.Minute`, in nanoseconds. -/
def Minute : Int := 60000000000

/-! ## config -/

/-- The struct `config.CodeConfig`. -/
structure CodeConfig where
  Length : Int
  ExpireMinutes : Int
  deriving DecidableEq, Repr

/-! ## store/memory.go -/

/-- The struct `CodeEntry`. -/
structure CodeEntry where
  OpenID : String
  AppID : String
  Code : String
  CreatedAt : Int
  ExpiresAt : Int
  deriving DecidableEq, Repr

/-- The struct `MemoryStore` (without its mutex): `codes` maps a code to its
entry, `userCodes` maps `openid:appid` to the code outstanding for that user. -/
structure MemoryStore where
  codes : List (String × CodeEntry)
  userCodes : List (String × String)
  deriving DecidableEq, Repr

/-- The store built by `init`. -/
def emptyStore : MemoryStore := ⟨[], []⟩

/-- The expression `openID + ":" + appID`. -/
def userKey (openID appID : String) : String := openID ++ ":" ++ appID

/-- The table `hextable` of `encoding/hex`. -/
def hextable : List Char := "0123456789abcdef".data

/-- One digit of `hextable`. -/
def hexDigit (n : Nat) : Char := hextable.getD n '0'

/-- The runtime constant `maxAlloc`, the largest size in bytes that `make`
accepts, on 64-bit platforms with 48 address bits. -/
def maxAlloc : Int := 2 ^ 48

/-- The builtin `make([]byte, n)`: panics (`none`) when `n` is negative or above
`maxAlloc`, otherwise yields a buffer of `n` bytes, given by its length. -/
def makeBytes (n : Int) : Option Nat :=
  if n < 0 ∨ n > maxAlloc then none else some n.toNat

/-- The function `hex.Encode`: two digits per byte, high nibble first. -/
def Encode (src : List Nat) : List Char :=
  src.flatMap (fun b => [hexDigit (b / 16), hexDigit (b % 16)])

/-- The function `hex.EncodeToString`: allocates the destination of
`EncodedLen(len(src))` bytes, twice the length of the source, and fills it
with `Encode`. A source slice has at most `maxAlloc` bytes, so doubling its
length does not overflow. -/
def EncodeToString (src : List Nat) : Option String :=
  match makeBytes (2 * (src.length : Int)) with
  | none => none
  | some _ => some (String.mk (Encode src))

/-- The function `generateRandomCode`. `length + 1` is computed on a 64-bit
`int`; a panic of `make`, here or in `hex.EncodeToString`, is the result `none`.
`rnd` is the byte stream that `rand.Read` copies into the buffer. -/
def generateRandomCode (length : Int) (rnd : Nat → Nat) : Option String :=
  let length := if length ≤ 0 then 6 else length
  match makeBytes (Int.tdiv (wrapInt64 (length + 1)) 2) with
  | none => none
  | some n =>
    let bytes := (List.range n).map (fun i => rnd i % 256)
    match EncodeToString bytes with
    | none => none
    | some code =>
      some (if (code.length : Int) > length then String.mk (code.data.take length.toNat)
        else code)

/-- The method `deleteCodeLocked`. A missing key of `userCodes` reads as `""`. -/
def deleteCodeLocked (s : MemoryStore) (code : String) (entry : CodeEntry) : MemoryStore :=
  let codes := mapDelete s.codes code
  let key := userKey entry.OpenID entry.AppID
  if (mapGet s.userCodes key).getD "" = code then
    ⟨codes, mapDelete s.userCodes key⟩
  else
    ⟨codes, s.userCodes⟩

/-- The method `GenerateCode`. `nowCreated` and `nowExpires` are the two
readings of `time.Now()`; the result is the store after the call and the
returned code. When `generateRandomCode` panics the result is `none` and the
store stays as it is at that point, the superseded code already removed. -/
def GenerateCode (s : MemoryStore) (cfg : CodeConfig) (openID appID : String)
    (rnd : Nat → Nat) (nowCreated nowExpires : Int) : MemoryStore × Option String :=
  let key := userKey openID appID
  let codes :=
    match mapGet s.userCodes key with
    | some oldCode => mapDelete s.codes oldCode
    | none => s.codes
  match generateRandomCode cfg.Length rnd with
  | none => (⟨codes, s.userCodes⟩, none)
  | some code =>
    let expireMinutes := if cfg.ExpireMinutes ≤ 0 then 5 else cfg.ExpireMinutes
    let entry : CodeEntry :=
      { OpenID := openID
        AppID := appID
        Code := code
        CreatedAt := nowCreated
        ExpiresAt := nowExpires + wrapInt64 (expireMinutes * Minute) }
    (⟨mapSet codes code entry, mapSet s.userCodes key code⟩, some code)

/-- The method `VerifyCode`; `now` is the reading of `time.Now()`. The empty
string is the failure result. -/
def VerifyCode (s : MemoryStore) (code appID : String) (now : Int) : MemoryStore × String :=
  match mapGet s.codes code with
  | none => (s, "")
  | some entry =>
    if After now entry.ExpiresAt then (deleteCodeLocked s code entry, "")
    else if appID ≠ "" ∧ entry.AppID ≠ appID then (s, "")
    else (deleteCodeLocked s code entry, entry.OpenID)

/-- The method `GetCodeByUser`: read-only, `none` is the `nil` result. -/
def GetCodeByUser (s : MemoryStore) (openID appID : String) (now : Int) :
    MemoryStore × Option CodeEntry :=
  match mapGet s.userCodes (userKey openID appID) with
  | none => (s, none)
  | some code =>
    match mapGet s.codes code with
    | none => (s, none)
    | some entry => if After now entry.ExpiresAt then (s, none) else (s, some entry)

/-- The loop of `cleanup`, run over the entries in the order `order` in which
the `range` statement happens to produce them. -/
def cleanupIn (order : List (String × CodeEntry)) (s : MemoryStore) (now : Int) : MemoryStore :=
  order.foldl
    (fun st p => if After now p.2.ExpiresAt then deleteCodeLocked st p.1 p.2 else st) s

/-- The method `cleanup`, iterating in the order of the representation. -/
def cleanup (s : MemoryStore) (now : Int) : MemoryStore := cleanupIn s.codes s now

/-- The method `Stats`. -/
def Stats (s : MemoryStore) : Nat × Nat := (s.codes.length, s.userCodes.length)

/-! ## handler/forwarder.go -/

/-- Modelled from the spec: the struct `config.Forwarder`, whose declaration is
not part of the sources at hand: name, endpoint URL, priority (integer, lower
is higher precedence), timeout in milliseconds and event filter (a list of
tokens). -/
structure Forwarder where
  Name : String
  URL : String
  Priority : Int
  Timeout : Int
  Events : List String
  deriving DecidableEq, Repr

/-- The fields of `wechat.Message` read by the forwarder. -/
structure Message where
  MsgType : String
  Event : String
  deriving DecidableEq, Repr

/-- The struct `ForwardResult`. `Error` is `none` for a `nil` error; the
response body is held as its text. -/
structure ForwardResult where
  ForwarderName : String
  Priority : Int
  Response : String
  StatusCode : Int
  Error : Option String
  deriving DecidableEq, Repr

/-- The predicate `unicode.IsSpace`, the white space removed by `strings.TrimSpace`. -/
def isSpace (c : Char) : Bool :=
  let n := c.toNat
  (9 ≤ n && n ≤ 13) || n == 32 || n == 133 || n == 160 || n == 5760 ||
  (8192 ≤ n && n ≤ 8202) || n == 8232 || n == 8233 || n == 8239 || n == 8287 || n == 12288

/-- The function `strings.TrimSpace`. -/
def TrimSpace (s : String) : String :=
  String.mk ((s.data.dropWhile isSpace).reverse.dropWhile isSpace).reverse

/-- The function `unicode.ToLower`: an ASCII character is lowered by the code of
the function itself (`A`-`Z` become `a`-`z`), any other character by the case
table of package `unicode`, here the parameter `caseTable`. -/
def unicodeToLower (caseTable : Char → Char) (r : Char) : Char :=
  if r.toNat ≤ 127 then Char.toLower r else caseTable r

/-- The function `strings.ToLower`: `unicode.ToLower` on every character. -/
def ToLower (caseTable : Char → Char) (s : String) : String :=
  String.mk (s.data.map (unicodeToLower caseTable))

/-- The function `strings.HasPrefix`. -/
def HasPrefix (s pre : String) : Bool := pre.data.isPrefixOf s.data

/-- The function `shouldForward`. -/
def shouldForward (caseTable : Char → Char) (f : Forwarder) (msgType eventType : String) :
    Bool :=
  if f.Events.length = 0 then true
  else
    f.Events.any (fun e =>
      let e := ToLower caseTable (TrimSpace e)
      if e = "*" ∨ e = "all" then true
      else if e = ToLower caseTable msgType then true
      else if eventType ≠ "" ∧ e = eventType then true
      else false)

/-- The value of `eventType` computed at the head of `ForwardMessage`. -/
def eventTypeOf (caseTable : Char → Char) (msg : Message) : String :=
  if msg.Event ≠ "" then ToLower caseTable msg.Event else ""

/-- The dispatch list `targets` built by the filtering loop of `ForwardMessage`. -/
def dispatchTargets (caseTable : Char → Char) (forwarders : List Forwarder) (msg : Message) :
    List Forwarder :=
  forwarders.filter (fun f => shouldForward caseTable f msg.MsgType (eventTypeOf caseTable msg))

/-- The acceptance test in the selection loop of `ForwardMessage`. -/
def accepted (r : ForwardResult) : Bool :=
  if r.Error = none ∧ r.StatusCode = 200 ∧ r.Response.length > 0 then
    let responseStr := TrimSpace r.Response
    decide (responseStr ≠ "" ∧ responseStr ≠ "success") && HasPrefix responseStr "<xml>"
  else false

/-- The selection loop of `ForwardMessage` over the sorted results: the response
of the first accepted result, `none` for the `nil` result. -/
def selectFirst : List ForwardResult → Option String
  | [] => none
  | r :: rest => if accepted r then some r.Response else selectFirst rest

/-- One pass of the inner loop of insertion sort: `x` moves left past every
element of larger priority. The already sorted prefix is held reversed, its
head being the element just left of `x`. -/
def sinkLeft (x : ForwardResult) : List ForwardResult → List ForwardResult
  | [] => [x]
  | y :: ys => if x.Priority < y.Priority then y :: sinkLeft x ys else x :: y :: ys

/-- The function `insertionSort_func` of package `sort` with `less`
comparing priorities. It is all that `sort.Slice` runs on a short slice (one of
2 to 6 elements in every release of Go); on longer slices `sort.Slice` may order
results of equal priority differently, which `IsSortSliceResult` covers. -/
def insertionSort_func (data : List ForwardResult) : List ForwardResult :=
  (data.foldl (fun revPrefix x => sinkLeft x revPrefix) []).reverse

/-- The contract of `sort.Slice` for any slice length: the outcome is a
rearrangement of the input in ascending priority; the order among results of
equal priority is not fixed. -/
def IsSortSliceResult (input output : List ForwardResult) : Prop :=
  output.Perm input ∧ output.Pairwise (fun a b => a.Priority ≤ b.Priority)

/-- The acceptance conditions as the specification lists them: no error, status
200, trimmed body non-empty, not `success`, and starting with `<xml>`. -/
def acceptedAsStated (r : ForwardResult) : Bool :=
  decide (r.Error = none) && decide (r.StatusCode = 200) &&
  decide (TrimSpace r.Response ≠ "") && decide (TrimSpace r.Response ≠ "success") &&
  HasPrefix (TrimSpace r.Response) "<xml>"

/-- A response body that the specification rules out: empty after trimming,
exactly `success` after trimming, or not starting with `<xml>` after trimming. -/
def rejectedBody (r : ForwardResult) : Bool :=
  decide (TrimSpace r.Response = "") || decide (TrimSpace r.Response = "success") ||
  !HasPrefix (TrimSpace r.Response) "<xml>"

/-- The event filter as the loop of `shouldForward` compares it: every token
trimmed and lower-cased. -/
def normalizedEvents (caseTable : Char → Char) (f : Forwarder) : List String :=
  f.Events.map (fun e => ToLower caseTable (TrimSpace e))

/-- Eligibility as the specification words it: the filter is empty, or contains
a wildcard token (`*` or `all`, compared case-insensitively), or contains the
lower-cased message type, or the message has a non-empty event token whose
lower-cased form is contained in the filter. -/
def eligibleAsStated (caseTable : Char → Char) (f : Forwarder) (msg : Message) : Bool :=
  f.Events.isEmpty ||
  f.Events.any (fun e =>
    decide (ToLower caseTable e = "*") || decide (ToLower caseTable e = "all")) ||
  f.Events.contains (ToLower caseTable msg.MsgType) ||
  (decide (msg.Event ≠ "") && f.Events.contains (ToLower caseTable msg.Event))

/-! ## Auxiliary notions of the store -/

/-- The primary map as `GenerateCode` leaves it before inserting the new entry. -/
def codesAfterSupersede (s : MemoryStore) (key : String) : List (String × CodeEntry) :=
  match mapGet s.userCodes key with
  | some oldCode => mapDelete s.codes oldCode
  | none => s.codes

/-- The store states reachable from the empty store by the store's methods,
with any configuration, random bytes and clock readings at each step; the
sweep may visit the entries in any order. -/
inductive Reachable : MemoryStore → Prop
  | init : Reachable emptyStore
  | generate {s : MemoryStore} (cfg : CodeConfig) (openID appID : String)
      (rnd : Nat → Nat) (nowCreated nowExpires : Int) :
      Reachable s → Reachable (GenerateCode s cfg openID appID rnd nowCreated nowExpires).1
  | verify {s : MemoryStore} (code appID : String) (now : Int) :
      Reachable s → Reachable (VerifyCode s code appID now).1
  | lookup {s : MemoryStore} (openID appID : String) (now : Int) :
      Reachable s → Reachable (GetCodeByUser s openID appID now).1
  | sweep {s : MemoryStore} (order : List (String × CodeEntry)) (now : Int) :
      Reachable s → order.Perm s.codes → Reachable (cleanupIn order s now)

/-- Every primary entry is the one its user's index entry points at, and the
codes of the primary map are pairwise distinct. -/
def Indexed (s : MemoryStore) : Prop :=
  (s.codes.map Prod.fst).Nodup ∧
  ∀ c e, mapGet s.codes c = some e → mapGet s.userCodes (userKey e.OpenID e.AppID) = some c

/-- The paired-map property: every index entry points at a code that is
present in the primary map and whose entry has that very `user:account` key. -/
def Paired (s : MemoryStore) : Prop :=
  ∀ k c, mapGet s.userCodes k = some c →
    ∃ e, mapGet s.codes c = some e ∧ userKey e.OpenID e.AppID = k

/-- The store states reachable from the empty store by `VerifyCode`, sweeps in
any order, and those calls of `GenerateCode` that return a code which is not a
key of the primary map once the superseded code has been removed. -/
inductive ReachableFresh : MemoryStore → Prop
  | init : ReachableFresh emptyStore
  | generate {s s' : MemoryStore} (cfg : CodeConfig) (openID appID code : String)
      (rnd : Nat → Nat) (nowCreated nowExpires : Int) :
      ReachableFresh s →
      GenerateCode s cfg openID appID rnd nowCreated nowExpires = (s', some code) →
      mapGet (codesAfterSupersede s (userKey openID appID)) code = none →
      ReachableFresh s'
  | verify {s : MemoryStore} (code appID : String) (now : Int) :
      ReachableFresh s → ReachableFresh (VerifyCode s code appID now).1
  | sweep {s : MemoryStore} (order : List (String × CodeEntry)) (now : Int) :
      ReachableFresh s → order.Perm s.codes → ReachableFresh (cleanupIn order s now)

/-! ## Lemmas on maps -/

theorem mapGet_mapDelete {V : Type} (m : List (String × V)) (k k' : String) :
    mapGet (mapDelete m k) k' = if k' = k then none else mapGet m k' := by
  induction m with
  | nil => simp [mapDelete, mapGet]
  | cons p rest ih =>
    obtain ⟨a, v⟩ := p
    unfold mapDelete at ih ⊢
    by_cases hak : a = k
    · subst hak
      simp only [List.filter_cons, ne_eq, not_true_eq_false, decide_False, Bool.false_eq_true,
        if_false, ih, mapGet]
      by_cases h : k' = a
      · simp [h]
      · have h2 : ¬ a = k' := fun e => h e.symm
        simp [h, h2]
    · simp only [List.filter_cons, ne_eq, hak, not_false_eq_true, decide_True, if_true, mapGet, ih]
      by_cases h : a = k'
      · subst h
        simp [hak]
      · simp [h]

theorem mapGet_mapDelete_self {V : Type} (m : List (String × V)) (k : String) :
    mapGet (mapDelete m k) k = none := by
  simp [mapGet_mapDelete]

theorem mapGet_mapDelete_ne {V : Type} (m : List (String × V)) (k k' : String) (h : k' ≠ k) :
    mapGet (mapDelete m k) k' = mapGet m k' := by
  simp [mapGet_mapDelete, h]

theorem mapGet_mapSet {V : Type} (m : List (String × V)) (k k' : String) (v : V) :
    mapGet (mapSet m k v) k' = if k' = k then some v else mapGet m k' := by
  unfold mapSet
  by_cases h : k' = k
  · subst h
    simp [mapGet]
  · have h2 : ¬ k = k' := fun e => h e.symm
    simp [mapGet, h, h2, mapGet_mapDelete]

theorem mapGet_mapSet_self {V : Type} (m : List (String × V)) (k : String) (v : V) :
    mapGet (mapSet m k v) k = some v := by
  simp [mapGet_mapSet]

theorem mapGet_mapSet_ne {V : Type} (m : List (String × V)) (k k' : String) (v : V)
    (h : k' ≠ k) : mapGet (mapSet m k v) k' = mapGet m k' := by
  simp [mapGet_mapSet, h]

/-! ## Lemmas on the store operations -/

theorem GenerateCode_eq_some {s s' : MemoryStore} {cfg : CodeConfig} {openID appID code : String}
    {rnd : Nat → Nat} {tc te : Int}
    (h : GenerateCode s cfg openID appID rnd tc te = (s', some code)) :
    ∃ entry : CodeEntry, entry.OpenID = openID ∧ entry.AppID = appID ∧ entry.Code = code ∧
      entry.ExpiresAt =
        te + wrapInt64 ((if cfg.ExpireMinutes ≤ 0 then 5 else cfg.ExpireMinutes) * Minute) ∧
      generateRandomCode cfg.Length rnd = some code ∧
      s'.codes = mapSet (codesAfterSupersede s (userKey openID appID)) code entry ∧
      s'.userCodes = mapSet s.userCodes (userKey openID appID) code := by
  unfold GenerateCode at h
  cases hg : generateRandomCode cfg.Length rnd with
  | none => simp [hg] at h
  | some c =>
    simp only [hg, Prod.mk.injEq, Option.some.injEq] at h
    obtain ⟨hs, hc⟩ := h
    subst hc
    subst hs
    exact ⟨_, rfl, rfl, rfl, rfl, rfl, rfl, rfl⟩

theorem GenerateCode_eq_none {s s' : MemoryStore} {cfg : CodeConfig} {openID appID : String}
    {rnd : Nat → Nat} {tc te : Int}
    (h : GenerateCode s cfg openID appID rnd tc te = (s', none)) :
    s'.codes = codesAfterSupersede s (userKey openID appID) ∧ s'.userCodes = s.userCodes := by
  unfold GenerateCode at h
  cases hg : generateRandomCode cfg.Length rnd with
  | none =>
    simp only [hg, Prod.mk.injEq, and_true] at h
    subst h
    exact ⟨rfl, rfl⟩
  | some c => simp [hg] at h

theorem deleteCodeLocked_codes (s : MemoryStore) (code : String) (entry : CodeEntry) :
    (deleteCodeLocked s code entry).codes = mapDelete s.codes code := by
  unfold deleteCodeLocked
  by_cases h : (mapGet s.userCodes (userKey entry.OpenID entry.AppID)).getD "" = code <;>
    simp [h]

theorem VerifyCode_absent (s : MemoryStore) (code appID : String) (now : Int)
    (h : mapGet s.codes code = none) : VerifyCode s code appID now = (s, "") := by
  simp [VerifyCode, h]

theorem VerifyCode_live (s : MemoryStore) (code appID : String) (now : Int) (entry : CodeEntry)
    (h : mapGet s.codes code = some entry) (hlive : now ≤ entry.ExpiresAt)
    (hacc : appID = "" ∨ entry.AppID = appID) :
    VerifyCode s code appID now = (deleteCodeLocked s code entry, entry.OpenID) := by
  have h1 : After now entry.ExpiresAt = false := by simp [After, hlive]
  have h2 : ¬ (appID ≠ "" ∧ entry.AppID ≠ appID) := by
    rintro ⟨a, b⟩
    rcases hacc with e | e
    · exact a e
    · exact b e
  simp [VerifyCode, h, h1, h2]

theorem VerifyCode_expired (s : MemoryStore) (code appID : String) (now : Int) (entry : CodeEntry)
    (h : mapGet s.codes code = some entry) (hexp : entry.ExpiresAt < now) :
    VerifyCode s code appID now = (deleteCodeLocked s code entry, "") := by
  have h1 : After now entry.ExpiresAt = true := by simp [After, hexp]
  simp [VerifyCode, h, h1]

/-! ## Issuing twice and verifying (C1) -/

/-- C1, as the code has it: when `GenerateCode` is called twice in succession for
one (user, account) pair and returns two different codes `code1`, `code2`, then
`VerifyCode(code1, "")` returns the empty string, the next `VerifyCode(code2, "")`,
made while the second entry has not expired, returns the user identity, and a
repeated `VerifyCode(code2, "")` returns the empty string. -/
theorem generate_twice_then_verify (s s1 s2 : MemoryStore) (cfg : CodeConfig)
    (openID appID code1 code2 : String) (rnd1 rnd2 : Nat → Nat) (tc1 te1 tc2 te2 t1 t2 t3 : Int)
    (h1 : GenerateCode s cfg openID appID rnd1 tc1 te1 = (s1, some code1))
    (h2 : GenerateCode s1 cfg openID appID rnd2 tc2 te2 = (s2, some code2))
    (hne : code1 ≠ code2)
    (hlive : ∀ e, mapGet s2.codes code2 = some e → t2 ≤ e.ExpiresAt) :
    (VerifyCode s2 code1 "" t1).2 = "" ∧
    (VerifyCode (VerifyCode s2 code1 "" t1).1 code2 "" t2).2 = openID ∧
    (VerifyCode (VerifyCode (VerifyCode s2 code1 "" t1).1 code2 "" t2).1 code2 "" t3).2 = "" := by
  obtain ⟨e1, -, -, -, -, -, -, hu1⟩ := GenerateCode_eq_some h1
  obtain ⟨e2, ho2, -, -, -, -, hc2, -⟩ := GenerateCode_eq_some h2
  have hold : mapGet s1.userCodes (userKey openID appID) = some code1 := by
    rw [hu1, mapGet_mapSet_self]
  have habs : mapGet s2.codes code1 = none := by
    rw [hc2, mapGet_mapSet_ne _ _ _ _ hne]
    simp [codesAfterSupersede, hold, mapGet_mapDelete_self]
  have hget : mapGet s2.codes code2 = some e2 := by
    rw [hc2, mapGet_mapSet_self]
  have r1 : VerifyCode s2 code1 "" t1 = (s2, "") := VerifyCode_absent _ _ _ _ habs
  have r2 : VerifyCode s2 code2 "" t2 = (deleteCodeLocked s2 code2 e2, e2.OpenID) :=
    VerifyCode_live _ _ _ _ _ hget (hlive _ hget) (Or.inl rfl)
  have r3 : VerifyCode (deleteCodeLocked s2 code2 e2) code2 "" t3
      = (deleteCodeLocked s2 code2 e2, "") := by
    apply VerifyCode_absent
    rw [deleteCodeLocked_codes, mapGet_mapDelete_self]
  rw [r1]
  simp only [r2, r3, ho2, and_self]

/-- C1 at a concrete input: two issues for ("U1", "acct1") with different random bytes. -/
theorem generate_twice_then_verify_witness :
    (VerifyCode (⟨[("010101", ⟨"U1", "acct1", "010101", 20, 300000000020⟩)],
        [("U1:acct1", "010101")]⟩ : MemoryStore) "000000" "" 30).2 = "" ∧
    (VerifyCode (VerifyCode (⟨[("010101", ⟨"U1", "acct1", "010101", 20, 300000000020⟩)],
        [("U1:acct1", "010101")]⟩ : MemoryStore) "000000" "" 30).1 "010101" "" 40).2 = "U1" ∧
    (VerifyCode (VerifyCode (VerifyCode
        (⟨[("010101", ⟨"U1", "acct1", "010101", 20, 300000000020⟩)],
        [("U1:acct1", "010101")]⟩ : MemoryStore) "000000" "" 30).1 "010101" "" 40).1
        "010101" "" 50).2 = "" :=
  generate_twice_then_verify emptyStore
    ⟨[("000000", ⟨"U1", "acct1", "000000", 10, 300000000010⟩)], [("U1:acct1", "000000")]⟩
    ⟨[("010101", ⟨"U1", "acct1", "010101", 20, 300000000020⟩)], [("U1:acct1", "010101")]⟩
    ⟨6, 5⟩ "U1" "acct1" "000000" "010101" (fun _ => 0) (fun _ => 1) 10 10 20 20 30 40 50
    (by decide) (by decide) (by decide)
    (by
      intro e he
      have h : e = ⟨"U1", "acct1", "010101", 20, 300000000020⟩ := by
        have h0 : mapGet ([("010101", (⟨"U1", "acct1", "010101", 20, 300000000020⟩ : CodeEntry))])
            "010101" = some ⟨"U1", "acct1", "010101", 20, 300000000020⟩ := by decide
        exact Option.some.inj (he.symm.trans h0)
      subst h
      decide)

/-- C1 as stated fails when the two calls draw the same random bytes: both
return "000000", the second entry replaces the first under that code, and
`VerifyCode(code1, "")` returns the user "U1" instead of the empty string. -/
theorem generate_twice_same_code_counterexample :
    GenerateCode emptyStore ⟨6, 5⟩ "U1" "acct1" (fun _ => 0) 10 10 =
      (⟨[("000000", ⟨"U1", "acct1", "000000", 10, 300000000010⟩)],
        [("U1:acct1", "000000")]⟩, some "000000") ∧
    GenerateCode ⟨[("000000", ⟨"U1", "acct1", "000000", 10, 300000000010⟩)],
        [("U1:acct1", "000000")]⟩ ⟨6, 5⟩ "U1" "acct1" (fun _ => 0) 20 20 =
      (⟨[("000000", ⟨"U1", "acct1", "000000", 20, 300000000020⟩)],
        [("U1:acct1", "000000")]⟩, some "000000") ∧
    (VerifyCode ⟨[("000000", ⟨"U1", "acct1", "000000", 20, 300000000020⟩)],
        [("U1:acct1", "000000")]⟩ "000000" "" 30).2 = "U1" ∧
    (VerifyCode ⟨[("000000", ⟨"U1", "acct1", "000000", 20, 300000000020⟩)],
        [("U1:acct1", "000000")]⟩ "000000" "" 30).2 ≠ "" :=
  ⟨by decide, by decide, by decide, by decide⟩

/-! ## Expiry boundary (C2) -/

/-- C2, as the code has it: for a stored entry with expiry timestamp `E` and a
matching or absent account filter, `VerifyCode` at time `t` returns the empty
string when `t` is strictly after `E`, and returns the entry's user identity
when `t` is `E` or earlier. -/
theorem verify_expiry_boundary (s : MemoryStore) (code appID : String) (entry : CodeEntry)
    (t : Int) (h : mapGet s.codes code = some entry)
    (hacc : appID = "" ∨ entry.AppID = appID) :
    (VerifyCode s code appID t).2 = if entry.ExpiresAt < t then "" else entry.OpenID := by
  by_cases hexp : entry.ExpiresAt < t
  · rw [VerifyCode_expired s code appID t entry h hexp, if_pos hexp]
  · rw [VerifyCode_live s code appID t entry h (not_lt.mp hexp) hacc, if_neg hexp]

/-- C2 at a concrete entry expiring at 300000000010, verified one tick later. -/
theorem verify_expiry_boundary_witness :
    (VerifyCode ⟨[("a1b2c3", ⟨"U1", "acct1", "a1b2c3", 10, 300000000010⟩)],
        [("U1:acct1", "a1b2c3")]⟩ "a1b2c3" "acct1" 300000000011).2
      = if (300000000010 : Int) < 300000000011 then "" else "U1" :=
  verify_expiry_boundary
    ⟨[("a1b2c3", ⟨"U1", "acct1", "a1b2c3", 10, 300000000010⟩)], [("U1:acct1", "a1b2c3")]⟩
    "a1b2c3" "acct1" ⟨"U1", "acct1", "a1b2c3", 10, 300000000010⟩ 300000000011
    (by decide) (Or.inr rfl)

/-- C2 as stated fails at the expiry instant itself: a code issued with expiry
timestamp 300000000010 and verified at exactly 300000000010 is still accepted,
`VerifyCode` returns the user "U1" and not the empty string. -/
theorem verify_at_expiry_counterexample :
    GenerateCode emptyStore ⟨6, 5⟩ "U1" "acct1" (fun _ => 0) 10 10 =
      (⟨[("000000", ⟨"U1", "acct1", "000000", 10, 300000000010⟩)],
        [("U1:acct1", "000000")]⟩, some "000000") ∧
    (VerifyCode ⟨[("000000", ⟨"U1", "acct1", "000000", 10, 300000000010⟩)],
        [("U1:acct1", "000000")]⟩ "000000" "" 300000000010).2 = "U1" ∧
    (VerifyCode ⟨[("000000", ⟨"U1", "acct1", "000000", 10, 300000000010⟩)],
        [("U1:acct1", "000000")]⟩ "000000" "" 300000000010).2 ≠ "" :=
  ⟨by decide, by decide, by decide⟩

/-! ## Mismatched account filter (C3) -/

/-- C3: for an unexpired entry of account `A` and a non-empty filter `B` other
than `A`, `VerifyCode(code, B)` returns the empty string and leaves the store
(both maps) unchanged, and a later `VerifyCode(code, A)` before expiry returns
the entry's user identity. -/
theorem verify_mismatch_keeps_code (s : MemoryStore) (code B : String) (entry : CodeEntry)
    (t1 t2 : Int) (h : mapGet s.codes code = some entry)
    (hB : B ≠ "") (hBA : B ≠ entry.AppID)
    (hlive1 : t1 ≤ entry.ExpiresAt) (hlive2 : t2 ≤ entry.ExpiresAt) :
    (VerifyCode s code B t1).2 = "" ∧
    (VerifyCode s code B t1).1.codes = s.codes ∧
    (VerifyCode s code B t1).1.userCodes = s.userCodes ∧
    (VerifyCode (VerifyCode s code B t1).1 code entry.AppID t2).2 = entry.OpenID := by
  have h1 : After t1 entry.ExpiresAt = false := by simp [After, hlive1]
  have hAB : ¬ entry.AppID = B := fun e => hBA e.symm
  have r1 : VerifyCode s code B t1 = (s, "") := by
    simp [VerifyCode, h, h1, hB, hAB]
  rw [r1]
  refine ⟨rfl, rfl, rfl, ?_⟩
  rw [VerifyCode_live s code entry.AppID t2 entry h hlive2 (Or.inr rfl)]

/-- C3 at a concrete entry of account "acct1" probed with filter "acct2". -/
theorem verify_mismatch_keeps_code_witness :
    (VerifyCode ⟨[("a1b2c3", ⟨"U1", "acct1", "a1b2c3", 10, 300⟩)],
        [("U1:acct1", "a1b2c3")]⟩ "a1b2c3" "acct2" 100).2 = "" ∧
    (VerifyCode ⟨[("a1b2c3", ⟨"U1", "acct1", "a1b2c3", 10, 300⟩)],
        [("U1:acct1", "a1b2c3")]⟩ "a1b2c3" "acct2" 100).1.codes
      = [("a1b2c3", ⟨"U1", "acct1", "a1b2c3", 10, 300⟩)] ∧
    (VerifyCode ⟨[("a1b2c3", ⟨"U1", "acct1", "a1b2c3", 10, 300⟩)],
        [("U1:acct1", "a1b2c3")]⟩ "a1b2c3" "acct2" 100).1.userCodes
      = [("U1:acct1", "a1b2c3")] ∧
    (VerifyCode (VerifyCode ⟨[("a1b2c3", ⟨"U1", "acct1", "a1b2c3", 10, 300⟩)],
        [("U1:acct1", "a1b2c3")]⟩ "a1b2c3" "acct2" 100).1 "a1b2c3" "acct1" 200).2 = "U1" :=
  verify_mismatch_keeps_code
    ⟨[("a1b2c3", ⟨"U1", "acct1", "a1b2c3", 10, 300⟩)], [("U1:acct1", "a1b2c3")]⟩
    "a1b2c3" "acct2" ⟨"U1", "acct1", "a1b2c3", 10, 300⟩ 100 200
    (by decide) (by decide) (by decide) (by decide) (by decide)

/-! ## Reachable stores and the single-entry invariant (C8) -/

theorem keys_nodup_mapDelete {V : Type} (m : List (String × V)) (k : String)
    (h : (m.map Prod.fst).Nodup) : ((mapDelete m k).map Prod.fst).Nodup :=
  List.Nodup.sublist (List.Sublist.map _ (List.filter_sublist _)) h

theorem not_mem_keys_mapDelete {V : Type} (m : List (String × V)) (k : String) :
    k ∉ (mapDelete m k).map Prod.fst := by
  intro hk
  obtain ⟨p, hp, hpk⟩ := List.mem_map.mp hk
  have := (List.mem_filter.mp hp).2
  simp [hpk] at this

theorem keys_nodup_mapSet {V : Type} (m : List (String × V)) (k : String) (v : V)
    (h : (m.map Prod.fst).Nodup) : ((mapSet m k v).map Prod.fst).Nodup := by
  unfold mapSet
  rw [List.map_cons, List.nodup_cons]
  exact ⟨not_mem_keys_mapDelete m k, keys_nodup_mapDelete m k h⟩

theorem mapGet_of_mem {V : Type} (m : List (String × V)) (h : (m.map Prod.fst).Nodup)
    (k : String) (v : V) (hm : (k, v) ∈ m) : mapGet m k = some v := by
  induction m with
  | nil => simp at hm
  | cons p rest ih =>
    obtain ⟨a, w⟩ := p
    rw [List.map_cons, List.nodup_cons] at h
    rcases List.mem_cons.mp hm with e | e
    · cases e
      simp [mapGet]
    · have hne : ¬ a = k := by
        intro hak
        apply h.1
        exact List.mem_map.mpr ⟨(k, v), e, hak.symm⟩
      simp [mapGet, hne, ih h.2 e]

theorem indexed_empty : Indexed emptyStore := by
  constructor
  · simp [emptyStore]
  · intro c e h
    simp [emptyStore, mapGet] at h

theorem codesAfterSupersede_get {s : MemoryStore} {key c : String} {e : CodeEntry}
    (h : mapGet (codesAfterSupersede s key) c = some e) :
    mapGet s.codes c = some e ∧ mapGet s.userCodes key ≠ some c := by
  unfold codesAfterSupersede at h
  cases hold : mapGet s.userCodes key with
  | none =>
    rw [hold] at h
    exact ⟨h, by simp⟩
  | some old =>
    rw [hold] at h
    simp only at h
    rw [mapGet_mapDelete] at h
    by_cases hco : c = old
    · simp [hco] at h
    · rw [if_neg hco] at h
      refine ⟨h, ?_⟩
      intro hh
      exact hco (Option.some.inj hh).symm

theorem codesAfterSupersede_nodup {s : MemoryStore} (key : String)
    (h : (s.codes.map Prod.fst).Nodup) :
    ((codesAfterSupersede s key).map Prod.fst).Nodup := by
  unfold codesAfterSupersede
  cases mapGet s.userCodes key with
  | none => exact h
  | some old => exact keys_nodup_mapDelete _ _ h

theorem indexed_generate {s : MemoryStore} (cfg : CodeConfig) (openID appID : String)
    (rnd : Nat → Nat) (tc te : Int) (hs : Indexed s) :
    Indexed (GenerateCode s cfg openID appID rnd tc te).1 := by
  cases hres : GenerateCode s cfg openID appID rnd tc te with
  | mk s' out =>
    cases out with
    | none =>
      obtain ⟨hc, hu⟩ := GenerateCode_eq_none hres
      constructor
      · show (s'.codes.map Prod.fst).Nodup
        rw [hc]
        exact codesAfterSupersede_nodup _ hs.1
      · intro c e hce
        change mapGet s'.codes c = some e at hce
        show mapGet s'.userCodes (userKey e.OpenID e.AppID) = some c
        rw [hc] at hce
        rw [hu]
        exact hs.2 c e (codesAfterSupersede_get hce).1
    | some code =>
      obtain ⟨entry, ho, ha, -, -, -, hc, hu⟩ := GenerateCode_eq_some hres
      constructor
      · show (s'.codes.map Prod.fst).Nodup
        rw [hc]
        exact keys_nodup_mapSet _ _ _ (codesAfterSupersede_nodup _ hs.1)
      · intro c e hce
        change mapGet s'.codes c = some e at hce
        show mapGet s'.userCodes (userKey e.OpenID e.AppID) = some c
        rw [hc, mapGet_mapSet] at hce
        rw [hu, mapGet_mapSet]
        by_cases hcc : c = code
        · rw [if_pos hcc] at hce
          cases hce
          rw [ho, ha, if_pos rfl, hcc]
        · rw [if_neg hcc] at hce
          have hce' := codesAfterSupersede_get hce
          have hidx := hs.2 c e hce'.1
          by_cases hk : userKey e.OpenID e.AppID = userKey openID appID
          · rw [hk] at hidx
            exact absurd hidx hce'.2
          · rw [if_neg hk]
            exact hidx

theorem indexed_deleteCodeLocked {s : MemoryStore} (code : String) (entry : CodeEntry)
    (hs : Indexed s) :
    Indexed (deleteCodeLocked s code entry) := by
  constructor
  · rw [deleteCodeLocked_codes]
    exact keys_nodup_mapDelete _ _ hs.1
  · intro c e hce
    rw [deleteCodeLocked_codes, mapGet_mapDelete] at hce
    by_cases hcc : c = code
    · simp [hcc] at hce
    · rw [if_neg hcc] at hce
      have hidx := hs.2 c e hce
      unfold deleteCodeLocked
      by_cases hd : (mapGet s.userCodes (userKey entry.OpenID entry.AppID)).getD "" = code
      · rw [if_pos hd]
        simp only
        rw [mapGet_mapDelete]
        by_cases hk : userKey e.OpenID e.AppID = userKey entry.OpenID entry.AppID
        · exfalso
          rw [hk] at hidx
          rw [hidx] at hd
          exact hcc hd
        · rw [if_neg hk]
          exact hidx
      · rw [if_neg hd]
        exact hidx

theorem indexed_verify {s : MemoryStore} (code appID : String) (now : Int) (hs : Indexed s) :
    Indexed (VerifyCode s code appID now).1 := by
  unfold VerifyCode
  cases h : mapGet s.codes code with
  | none => exact hs
  | some entry =>
    simp only
    split
    · exact indexed_deleteCodeLocked code entry hs
    · split
      · exact hs
      · exact indexed_deleteCodeLocked code entry hs

theorem GetCodeByUser_store (s : MemoryStore) (openID appID : String) (now : Int) :
    (GetCodeByUser s openID appID now).1 = s := by
  unfold GetCodeByUser
  cases mapGet s.userCodes (userKey openID appID) with
  | none => rfl
  | some code =>
    simp only
    cases mapGet s.codes code with
    | none => rfl
    | some entry =>
      simp only
      split <;> rfl

theorem indexed_cleanupIn (order : List (String × CodeEntry)) (now : Int) :
    ∀ s : MemoryStore, Indexed s → Indexed (cleanupIn order s now) := by
  induction order with
  | nil => intro s hs; exact hs
  | cons p rest ih =>
    intro s hs
    unfold cleanupIn
    rw [List.foldl_cons]
    by_cases hexp : After now p.2.ExpiresAt = true
    · rw [if_pos hexp]
      exact ih _ (indexed_deleteCodeLocked p.1 p.2 hs)
    · rw [if_neg hexp]
      exact ih s hs

theorem indexed_of_reachable {s : MemoryStore} (h : Reachable s) : Indexed s := by
  induction h with
  | init => exact indexed_empty
  | generate cfg openID appID rnd tc te _ ih => exact indexed_generate cfg openID appID rnd tc te ih
  | verify code appID now _ ih => exact indexed_verify code appID now ih
  | lookup openID appID now _ ih =>
    rw [GetCodeByUser_store]
    exact ih
  | sweep order now _ _ ih => exact indexed_cleanupIn order now _ ih

theorem length_le_one_of_same_key {V : Type} (l : List (String × V))
    (hnd : (l.map Prod.fst).Nodup) (k : String) (hall : ∀ p ∈ l, p.1 = k) : l.length ≤ 1 := by
  match l, hnd, hall with
  | [], _, _ => simp
  | [_], _, _ => simp
  | x :: y :: rest, hnd, hall =>
    exfalso
    have hx := hall x (by simp)
    have hy := hall y (by simp)
    have hxy : x.1 = y.1 := hx.trans hy.symm
    simp [hxy] at hnd

theorem indexed_at_most_one {s : MemoryStore} (hs : Indexed s) (openID appID : String) :
    (s.codes.filter (fun p => decide (p.2.OpenID = openID ∧ p.2.AppID = appID))).length ≤ 1 := by
  cases hidx : mapGet s.userCodes (userKey openID appID) with
  | none =>
    apply length_le_one_of_same_key _
      (List.Nodup.sublist (List.Sublist.map _ (List.filter_sublist _)) hs.1) ""
    intro p hp
    obtain ⟨hmem, hpred⟩ := List.mem_filter.mp hp
    have hpred' : p.2.OpenID = openID ∧ p.2.AppID = appID := by simpa using hpred
    have := hs.2 p.1 p.2 (mapGet_of_mem _ hs.1 p.1 p.2 hmem)
    rw [hpred'.1, hpred'.2, hidx] at this
    cases this
  | some c =>
    apply length_le_one_of_same_key _
      (List.Nodup.sublist (List.Sublist.map _ (List.filter_sublist _)) hs.1) c
    intro p hp
    obtain ⟨hmem, hpred⟩ := List.mem_filter.mp hp
    have hpred' : p.2.OpenID = openID ∧ p.2.AppID = appID := by simpa using hpred
    have := hs.2 p.1 p.2 (mapGet_of_mem _ hs.1 p.1 p.2 hmem)
    rw [hpred'.1, hpred'.2, hidx] at this
    exact (Option.some.inj this).symm

/-- C8: in every store state reachable from the empty store by `GenerateCode`,
`VerifyCode`, `GetCodeByUser` and cleanup steps, with any generated codes and
clock readings, the primary map holds at most one entry for any given
(user, account) pair. -/
theorem reachable_at_most_one_entry (s : MemoryStore) (h : Reachable s)
    (openID appID : String) :
    (s.codes.filter (fun p => decide (p.2.OpenID = openID ∧ p.2.AppID = appID))).length ≤ 1 :=
  indexed_at_most_one (indexed_of_reachable h) openID appID

/-- C8 at the store reached by one issue for ("U1", "acct1"). -/
theorem reachable_at_most_one_entry_witness :
    ((([("000000", ⟨"U1", "acct1", "000000", 10, 300000000010⟩)] :
      List (String × CodeEntry)).filter
      (fun p => decide (p.2.OpenID = "U1" ∧ p.2.AppID = "acct1"))).length ≤ 1) :=
  reachable_at_most_one_entry
    ⟨[("000000", ⟨"U1", "acct1", "000000", 10, 300000000010⟩)], [("U1:acct1", "000000")]⟩
    (Reachable.generate ⟨6, 5⟩ "U1" "acct1" (fun _ => 0) 10 10 Reachable.init)
    "U1" "acct1"

/-! ## Issuing for another pair (C9) -/

/-- C9, as the code has it: let pair Q hold an unexpired outstanding code `c`,
and let `GenerateCode` run for a pair P whose index key (`user:account`) differs
from that of Q, whose index entry does not point at `c`, and let it return a code
other than `c`. Then Q's entry for `c` in the primary map and Q's index entry
are unchanged, and `VerifyCode(c, Q's account)` still returns Q's user. -/
theorem generate_other_pair_frame (s s' : MemoryStore) (cfg : CodeConfig)
    (openP appP openQ appQ c code' : String) (e : CodeEntry) (rnd : Nat → Nat)
    (tc te now : Int)
    (hkey : userKey openP appP ≠ userKey openQ appQ)
    (hc : mapGet s.codes c = some e) (heo : e.OpenID = openQ) (hea : e.AppID = appQ)
    (hidx : mapGet s.userCodes (userKey openQ appQ) = some c)
    (hlive : now ≤ e.ExpiresAt)
    (hg : GenerateCode s cfg openP appP rnd tc te = (s', some code'))
    (hfresh : code' ≠ c)
    (hP : mapGet s.userCodes (userKey openP appP) ≠ some c) :
    mapGet s'.codes c = some e ∧
    mapGet s'.userCodes (userKey openQ appQ) = some c ∧
    (VerifyCode s' c appQ now).2 = openQ := by
  obtain ⟨entry, -, -, -, -, -, hcodes, hu⟩ := GenerateCode_eq_some hg
  have h1 : mapGet s'.codes c = some e := by
    rw [hcodes, mapGet_mapSet_ne _ _ _ _ (Ne.symm hfresh)]
    unfold codesAfterSupersede
    cases hold : mapGet s.userCodes (userKey openP appP) with
    | none => exact hc
    | some old =>
      simp only
      have hne : c ≠ old := by
        intro h
        apply hP
        rw [hold, h]
      rw [mapGet_mapDelete_ne _ _ _ hne]
      exact hc
  have h2 : mapGet s'.userCodes (userKey openQ appQ) = some c := by
    rw [hu, mapGet_mapSet_ne _ _ _ _ (Ne.symm hkey)]
    exact hidx
  refine ⟨h1, h2, ?_⟩
  rw [VerifyCode_live s' c appQ now e h1 hlive (Or.inr hea), heo]

/-- C9 at a concrete input: ("U2", "acct2") holds "000000", ("U1", "acct1") is issued "010101". -/
theorem generate_other_pair_frame_witness :
    mapGet ([("010101", ⟨"U1", "acct1", "010101", 20, 300000000020⟩),
        ("000000", ⟨"U2", "acct2", "000000", 10, 300000000010⟩)] : List (String × CodeEntry))
      "000000" = some ⟨"U2", "acct2", "000000", 10, 300000000010⟩ ∧
    mapGet ([("U1:acct1", "010101"), ("U2:acct2", "000000")] : List (String × String))
      (userKey "U2" "acct2") = some "000000" ∧
    (VerifyCode ⟨[("010101", ⟨"U1", "acct1", "010101", 20, 300000000020⟩),
        ("000000", ⟨"U2", "acct2", "000000", 10, 300000000010⟩)],
        [("U1:acct1", "010101"), ("U2:acct2", "000000")]⟩ "000000" "acct2" 30).2 = "U2" :=
  generate_other_pair_frame
    ⟨[("000000", ⟨"U2", "acct2", "000000", 10, 300000000010⟩)], [("U2:acct2", "000000")]⟩
    ⟨[("010101", ⟨"U1", "acct1", "010101", 20, 300000000020⟩),
        ("000000", ⟨"U2", "acct2", "000000", 10, 300000000010⟩)],
        [("U1:acct1", "010101"), ("U2:acct2", "000000")]⟩
    ⟨6, 5⟩ "U1" "acct1" "U2" "acct2" "000000" "010101"
    ⟨"U2", "acct2", "000000", 10, 300000000010⟩ (fun _ => 1) 20 20 30
    (by decide) (by decide) rfl rfl (by decide) (by decide) (by decide) (by decide) (by decide)

/-- C9 as stated fails when the code drawn for P equals Q's outstanding code:
("U2", "acct2") holds "000000"; `GenerateCode` for ("U1", "acct1") draws "000000"
again and overwrites the primary entry, so `VerifyCode("000000", "acct2")` returns
the empty string instead of "U2". -/
theorem generate_other_pair_collision_counterexample :
    GenerateCode emptyStore ⟨6, 5⟩ "U2" "acct2" (fun _ => 0) 10 10 =
      (⟨[("000000", ⟨"U2", "acct2", "000000", 10, 300000000010⟩)],
        [("U2:acct2", "000000")]⟩, some "000000") ∧
    GenerateCode ⟨[("000000", ⟨"U2", "acct2", "000000", 10, 300000000010⟩)],
        [("U2:acct2", "000000")]⟩ ⟨6, 5⟩ "U1" "acct1" (fun _ => 0) 20 20 =
      (⟨[("000000", ⟨"U1", "acct1", "000000", 20, 300000000020⟩)],
        [("U1:acct1", "000000"), ("U2:acct2", "000000")]⟩, some "000000") ∧
    mapGet ([("000000", ⟨"U1", "acct1", "000000", 20, 300000000020⟩)] :
        List (String × CodeEntry)) "000000"
      ≠ some ⟨"U2", "acct2", "000000", 10, 300000000010⟩ ∧
    (VerifyCode ⟨[("000000", ⟨"U1", "acct1", "000000", 20, 300000000020⟩)],
        [("U1:acct1", "000000"), ("U2:acct2", "000000")]⟩ "000000" "acct2" 30).2 = "" ∧
    (VerifyCode ⟨[("000000", ⟨"U1", "acct1", "000000", 20, 300000000020⟩)],
        [("U1:acct1", "000000"), ("U2:acct2", "000000")]⟩ "000000" "acct2" 30).2 ≠ "U2" :=
  ⟨by decide, by decide, by decide, by decide, by decide⟩

/-! ## Code generation (C10) -/

theorem hexDigit_mem (n : Nat) : hexDigit n ∈ hextable := by
  unfold hexDigit
  by_cases h : n < 16
  · interval_cases n <;> decide
  · have hlen : hextable.length ≤ n := by
      have : hextable.length = 16 := by decide
      omega
    rw [List.getD_eq_default _ _ hlen]
    decide

theorem Encode_length (src : List Nat) : (Encode src).length = 2 * src.length := by
  unfold Encode
  induction src with
  | nil => rfl
  | cons b rest ih =>
    rw [List.flatMap_cons, List.length_append, ih, List.length_cons]
    simp only [List.length_cons, List.length_nil]
    omega

theorem Encode_hex (src : List Nat) : ∀ c ∈ Encode src, c ∈ hextable := by
  intro c hc
  unfold Encode at hc
  simp only [List.mem_flatMap, List.mem_cons, List.mem_singleton] at hc
  obtain ⟨b, -, h⟩ := hc
  simp only [List.not_mem_nil, or_false] at h
  rcases h with h | h <;> (rw [h]; exact hexDigit_mem _)

theorem wrapInt64_of_range (x : Int) (h0 : -(2 ^ 63) ≤ x) (h1 : x < 2 ^ 63) :
    wrapInt64 x = x := by
  unfold wrapInt64
  rw [Int.emod_eq_of_lt (by omega) (by omega)]
  omega

theorem makeBytes_ok (n : Int) (h0 : 0 ≤ n) (h1 : n ≤ 2 ^ 48) :
    makeBytes n = some n.toNat := by
  unfold makeBytes maxAlloc
  rw [if_neg (by omega)]

theorem makeBytes_panic (n : Int) (h : n < 0 ∨ 2 ^ 48 < n) : makeBytes n = none := by
  unfold makeBytes maxAlloc
  rw [if_pos h]

theorem EncodeToString_ok (src : List Nat) (h : 2 * (src.length : Int) ≤ 2 ^ 48) :
    EncodeToString src = some (String.mk (Encode src)) := by
  have hm : makeBytes (2 * (src.length : Int)) = some (2 * (src.length : Int)).toNat :=
    makeBytes_ok (2 * (src.length : Int)) (by omega) h
  unfold EncodeToString
  rw [hm]

theorem EncodeToString_panic (src : List Nat) (h0 : 2 ^ 48 < 2 * (src.length : Int)) :
    EncodeToString src = none := by
  have hm : makeBytes (2 * (src.length : Int)) = none :=
    makeBytes_panic (2 * (src.length : Int)) (Or.inr h0)
  unfold EncodeToString
  rw [hm]

theorem generateRandomCode_eq (L len : Int) (rnd : Nat → Nat)
    (hlen : (if L ≤ 0 then 6 else L) = len) (h0 : 0 < len) (h1 : len ≤ 2 ^ 48) :
    generateRandomCode L rnd = some (String.mk ((Encode ((List.range ((len + 1) / 2).toNat).map
      (fun i => rnd i % 256))).take len.toNat)) := by
  have hw : wrapInt64 (len + 1) = len + 1 :=
    wrapInt64_of_range (len + 1) (by omega) (by omega)
  have hd : Int.tdiv (len + 1) 2 = (len + 1) / 2 :=
    Int.tdiv_eq_ediv (by omega) (by omega)
  have hm : makeBytes ((len + 1) / 2) = some ((len + 1) / 2).toNat :=
    makeBytes_ok ((len + 1) / 2) (by omega) (by omega)
  have hsz : ((List.map (fun i => rnd i % 256) (List.range ((len + 1) / 2).toNat)).length : Int)
      = (len + 1) / 2 := by
    rw [List.length_map, List.length_range, Int.toNat_of_nonneg (by omega)]
  have he : EncodeToString (List.map (fun i => rnd i % 256)
      (List.range ((len + 1) / 2).toNat)) = some (String.mk (Encode (List.map
        (fun i => rnd i % 256) (List.range ((len + 1) / 2).toNat)))) := by
    apply EncodeToString_ok
    rw [hsz]
    omega
  unfold generateRandomCode
  simp only [hlen]
  rw [hw, hd, hm]
  simp only
  rw [he]
  simp only
  congr 1
  split
  · rfl
  · rename_i hgt
    rw [String.length_mk, Encode_length] at hgt
    push_cast at hgt
    rw [hsz] at hgt
    have hle : (Encode ((List.range ((len + 1) / 2).toNat).map
        (fun i => rnd i % 256))).length ≤ len.toNat := by
      rw [Encode_length, List.length_map, List.length_range]
      omega
    rw [List.take_of_length_le hle]

theorem generateRandomCode_above_limit (L : Int) (rnd : Nat → Nat)
    (h0 : 2 ^ 48 < L) (h1 : L ≤ maxInt64) : generateRandomCode L rnd = none := by
  unfold maxInt64 at h1
  have hpos : ¬ L ≤ 0 := by omega
  by_cases hmax : L = 2 ^ 63 - 1
  · have hw : wrapInt64 (L + 1) = -(2 ^ 63) := by
      rw [hmax]
      decide
    have hm : makeBytes (Int.tdiv (-(2 ^ 63)) 2) = none :=
      makeBytes_panic (Int.tdiv (-(2 ^ 63)) 2) (Or.inl (by decide))
    unfold generateRandomCode
    simp only [if_neg hpos]
    rw [hw, hm]
  · have hw : wrapInt64 (L + 1) = L + 1 :=
      wrapInt64_of_range (L + 1) (by omega) (by omega)
    have hd : Int.tdiv (L + 1) 2 = (L + 1) / 2 :=
      Int.tdiv_eq_ediv (by omega) (by omega)
    by_cases hbig : 2 ^ 48 < (L + 1) / 2
    · have hm : makeBytes ((L + 1) / 2) = none :=
        makeBytes_panic ((L + 1) / 2) (Or.inr hbig)
      unfold generateRandomCode
      simp only [if_neg hpos]
      rw [hw, hd, hm]
    · have hm : makeBytes ((L + 1) / 2) = some ((L + 1) / 2).toNat :=
        makeBytes_ok ((L + 1) / 2) (by omega) (by omega)
      have hsz : ((List.map (fun i => rnd i % 256)
          (List.range ((L + 1) / 2).toNat)).length : Int) = (L + 1) / 2 := by
        rw [List.length_map, List.length_range, Int.toNat_of_nonneg (by omega)]
      have he : EncodeToString (List.map (fun i => rnd i % 256)
          (List.range ((L + 1) / 2).toNat)) = none := by
        apply EncodeToString_panic
        rw [hsz]
        omega
      unfold generateRandomCode
      simp only [if_neg hpos]
      rw [hw, hd, hm]
      simp only
      rw [he]

/-- C10, as the code has it: for every configured length `L` that does not
exceed the allocation limit `maxAlloc` of the runtime and every stream of
random bytes, `generateRandomCode(L)` returns a string of lowercase hexadecimal
characters whose length is `L` when `L > 0` and 6 when `L ≤ 0`, odd `L` included. -/
theorem generateRandomCode_hex_length (L : Int) (rnd : Nat → Nat) (hL : L ≤ maxAlloc) :
    ∃ code : String, generateRandomCode L rnd = some code ∧
      (∀ c ∈ code.data, c ∈ hextable) ∧
      (code.length : Int) = if L > 0 then L else 6 := by
  unfold maxAlloc at hL
  have key : ∀ len : Int, (if L ≤ 0 then 6 else L) = len → 0 < len → len ≤ 2 ^ 48 →
      ∃ code : String, generateRandomCode L rnd = some code ∧
        (∀ c ∈ code.data, c ∈ hextable) ∧ (code.length : Int) = len := by
    intro len hlen h0 h1
    refine ⟨_, generateRandomCode_eq L len rnd hlen h0 h1, ?_, ?_⟩
    · intro c hc
      exact Encode_hex _ c (List.mem_of_mem_take hc)
    · rw [String.length_mk, List.length_take, Encode_length, List.length_map,
        List.length_range]
      omega
  by_cases hpos : L ≤ 0
  · have hn : ¬ L > 0 := by omega
    rw [if_neg hn]
    exact key 6 (if_pos hpos) (by decide) (by decide)
  · have hp : L > 0 := by omega
    rw [if_pos hp]
    exact key L (if_neg hpos) hp hL

/-- C10 at the odd length 5. -/
theorem generateRandomCode_hex_length_witness :
    ∃ code : String, generateRandomCode 5 (fun i => 171 + i) = some code ∧
      (∀ c ∈ code.data, c ∈ hextable) ∧
      (code.length : Int) = if (5 : Int) > 0 then 5 else 6 :=
  generateRandomCode_hex_length 5 (fun i => 171 + i) (by decide)

/-- C10 as stated fails for a length above the allocation limit. At the largest
`int`, `length + 1` wraps to the smallest `int`, the buffer size is negative
and `make` panics. At 281474976710657, one above `maxAlloc`, the destination of
`hex.EncodeToString` has 281474976710658 bytes and its `make` panics. No string
is returned in either case. -/
theorem generateRandomCode_maxInt_counterexample :
    generateRandomCode 9223372036854775807 (fun _ => 0) = none ∧
    generateRandomCode 281474976710657 (fun _ => 0) = none :=
  ⟨generateRandomCode_above_limit 9223372036854775807 (fun _ => 0) (by decide) (by decide),
   generateRandomCode_above_limit 281474976710657 (fun _ => 0) (by decide) (by decide)⟩

/-! ## Sorting by priority -/

theorem sinkLeft_perm (x : ForwardResult) (l : List ForwardResult) :
    (sinkLeft x l).Perm (x :: l) := by
  induction l with
  | nil => exact List.Perm.refl _
  | cons y ys ih =>
    unfold sinkLeft
    by_cases h : x.Priority < y.Priority
    · rw [if_pos h]
      exact (List.Perm.cons y ih).trans (List.Perm.swap x y ys)
    · rw [if_neg h]

theorem sinkLeft_descending (x : ForwardResult) (l : List ForwardResult)
    (hl : l.Pairwise (fun a b => b.Priority ≤ a.Priority)) :
    (sinkLeft x l).Pairwise (fun a b => b.Priority ≤ a.Priority) := by
  induction l with
  | nil => simp [sinkLeft]
  | cons y ys ih =>
    rw [List.pairwise_cons] at hl
    unfold sinkLeft
    by_cases h : x.Priority < y.Priority
    · rw [if_pos h, List.pairwise_cons]
      refine ⟨?_, ih hl.2⟩
      intro z hz
      rcases List.mem_cons.mp ((sinkLeft_perm x ys).mem_iff.mp hz) with e | e
      · rw [e]
        exact le_of_lt h
      · exact hl.1 z e
    · rw [if_neg h, List.pairwise_cons, List.pairwise_cons]
      refine ⟨?_, hl⟩
      intro z hz
      rcases List.mem_cons.mp hz with e | e
      · rw [e]
        exact not_lt.mp h
      · exact le_trans (hl.1 z e) (not_lt.mp h)

theorem foldl_sinkLeft_perm (l : List ForwardResult) :
    ∀ acc : List ForwardResult,
      (l.foldl (fun revPrefix x => sinkLeft x revPrefix) acc).Perm (l ++ acc) := by
  induction l with
  | nil => intro acc; exact List.Perm.refl _
  | cons x xs ih =>
    intro acc
    rw [List.foldl_cons]
    refine (ih (sinkLeft x acc)).trans ?_
    refine (List.Perm.append_left xs (sinkLeft_perm x acc)).trans ?_
    exact List.perm_middle

theorem foldl_sinkLeft_descending (l : List ForwardResult) :
    ∀ acc : List ForwardResult, acc.Pairwise (fun a b => b.Priority ≤ a.Priority) →
      (l.foldl (fun revPrefix x => sinkLeft x revPrefix) acc).Pairwise
        (fun a b => b.Priority ≤ a.Priority) := by
  induction l with
  | nil => intro acc h; exact h
  | cons x xs ih =>
    intro acc h
    rw [List.foldl_cons]
    exact ih _ (sinkLeft_descending x acc h)

theorem insertionSort_func_isResult (l : List ForwardResult) :
    IsSortSliceResult l (insertionSort_func l) := by
  unfold IsSortSliceResult insertionSort_func
  constructor
  · refine (List.reverse_perm _).trans ?_
    have := foldl_sinkLeft_perm l []
    rwa [List.append_nil] at this
  · rw [List.pairwise_reverse]
    exact foldl_sinkLeft_descending l [] List.Pairwise.nil

/-! ## The selection walk -/

theorem TrimSpace_empty : TrimSpace "" = "" := by decide

theorem HasPrefix_xml_ne_empty (s : String) (h : HasPrefix s "<xml>" = true) : s ≠ "" := by
  intro e
  rw [e] at h
  exact absurd h (by decide)

theorem HasPrefix_xml_ne_success (s : String) (h : HasPrefix s "<xml>" = true) :
    s ≠ "success" := by
  intro e
  rw [e] at h
  exact absurd h (by decide)

theorem accepted_iff (r : ForwardResult) :
    accepted r = true ↔ r.Error = none ∧ r.StatusCode = 200 ∧
      HasPrefix (TrimSpace r.Response) "<xml>" = true := by
  unfold accepted
  constructor
  · intro h
    split at h
    · rename_i hc
      simp only [Bool.and_eq_true, decide_eq_true_eq] at h
      exact ⟨hc.1, hc.2.1, h.2⟩
    · cases h
  · rintro ⟨he, hst, hp⟩
    have hlen : r.Response.length > 0 := by
      by_contra hcon
      have hz : r.Response.length = 0 := by omega
      have hemp : r.Response = "" := by
        have hd : r.Response.data = [] := List.length_eq_zero.mp hz
        cases hr : r.Response with
        | mk d =>
          rw [hr] at hd
          simp only at hd
          rw [hd]
      rw [hemp, TrimSpace_empty] at hp
      exact absurd hp (by decide)
    rw [if_pos ⟨he, hst, hlen⟩]
    simp only [Bool.and_eq_true, decide_eq_true_eq]
    exact ⟨⟨HasPrefix_xml_ne_empty _ hp, HasPrefix_xml_ne_success _ hp⟩, hp⟩

theorem accepted_eq_acceptedAsStated (r : ForwardResult) : accepted r = acceptedAsStated r := by
  rw [Bool.eq_iff_iff, accepted_iff]
  unfold acceptedAsStated
  simp only [Bool.and_eq_true, decide_eq_true_eq]
  constructor
  · rintro ⟨he, hst, hp⟩
    exact ⟨⟨⟨⟨he, hst⟩, HasPrefix_xml_ne_empty _ hp⟩, HasPrefix_xml_ne_success _ hp⟩, hp⟩
  · rintro ⟨⟨⟨⟨he, hst⟩, -⟩, -⟩, hp⟩
    exact ⟨he, hst, hp⟩

theorem rejectedBody_not_accepted (r : ForwardResult) (h : rejectedBody r = true) :
    accepted r = false := by
  cases ha : accepted r with
  | false => rfl
  | true =>
    exfalso
    obtain ⟨-, -, hp⟩ := (accepted_iff r).mp ha
    unfold rejectedBody at h
    simp only [Bool.or_eq_true, decide_eq_true_eq, Bool.not_eq_true'] at h
    rcases h with (h | h) | h
    · exact HasPrefix_xml_ne_empty _ hp h
    · exact HasPrefix_xml_ne_success _ hp h
    · rw [h] at hp
      cases hp

theorem selectFirst_none (l : List ForwardResult) (h : ∀ r ∈ l, accepted r = false) :
    selectFirst l = none := by
  induction l with
  | nil => rfl
  | cons r rest ih =>
    unfold selectFirst
    rw [h r (List.mem_cons_self _ _)]
    exact ih (fun q hq => h q (List.mem_cons_of_mem _ hq))

theorem selectFirst_some (l : List ForwardResult) (resp : String)
    (h : selectFirst l = some resp) : ∃ r ∈ l, accepted r = true ∧ r.Response = resp := by
  induction l with
  | nil => cases h
  | cons r rest ih =>
    unfold selectFirst at h
    by_cases ha : accepted r = true
    · rw [if_pos ha] at h
      exact ⟨r, List.mem_cons_self _ _, ha, Option.some.inj h⟩
    · rw [if_neg ha] at h
      obtain ⟨q, hq, hqa, hqr⟩ := ih h
      exact ⟨q, List.mem_cons_of_mem _ hq, hqa, hqr⟩

theorem selectFirst_sorted (l : List ForwardResult)
    (hs : l.Pairwise (fun a b => a.Priority ≤ b.Priority))
    (hex : ∃ r ∈ l, accepted r = true) :
    ∃ r ∈ l, accepted r = true ∧ selectFirst l = some r.Response ∧
      ∀ q ∈ l, accepted q = true → r.Priority ≤ q.Priority := by
  induction l with
  | nil =>
    obtain ⟨r, hr, -⟩ := hex
    cases hr
  | cons x rest ih =>
    rw [List.pairwise_cons] at hs
    by_cases ha : accepted x = true
    · refine ⟨x, List.mem_cons_self _ _, ha, ?_, ?_⟩
      · unfold selectFirst
        rw [if_pos ha]
      · intro q hq _
        rcases List.mem_cons.mp hq with e | e
        · rw [e]
        · exact hs.1 q e
    · have hex' : ∃ r ∈ rest, accepted r = true := by
        obtain ⟨r, hr, hra⟩ := hex
        rcases List.mem_cons.mp hr with e | e
        · rw [e] at hra
          exact absurd hra ha
        · exact ⟨r, e, hra⟩
      obtain ⟨r, hr, hra, hsel, hmin⟩ := ih hs.2 hex'
      refine ⟨r, List.mem_cons_of_mem _ hr, hra, ?_, ?_⟩
      · unfold selectFirst
        rw [if_neg ha]
        exact hsel
      · intro q hq hqa
        rcases List.mem_cons.mp hq with e | e
        · rw [e] at hqa
          exact absurd hqa ha
        · exact hmin q e hqa

theorem selectFirst_of_sortResult (results sorted : List ForwardResult)
    (hs : IsSortSliceResult results sorted) (hex : ∃ r ∈ results, accepted r = true) :
    ∃ r ∈ results, accepted r = true ∧ selectFirst sorted = some r.Response ∧
      ∀ q ∈ results, accepted q = true → r.Priority ≤ q.Priority := by
  have hex' : ∃ r ∈ sorted, accepted r = true := by
    obtain ⟨r, hr, hra⟩ := hex
    exact ⟨r, hs.1.mem_iff.mpr hr, hra⟩
  obtain ⟨r, hr, hra, hsel, hmin⟩ := selectFirst_sorted sorted hs.2 hex'
  exact ⟨r, hs.1.mem_iff.mp hr, hra, hsel, fun q hq => hmin q (hs.1.mem_iff.mpr hq)⟩

/-! ## Lowest priority wins (C4) -/

/-- C4: for every collection of forwarding outcomes in which two or more are
accepted (no error, status 200, trimmed body non-empty, not `success`, starting
with `<xml>`), and for every arrangement that `sort.Slice` may produce, the
response returned by the selection walk is the response of an accepted outcome
whose priority is the lowest among all accepted outcomes. -/
theorem select_lowest_priority (results sorted : List ForwardResult)
    (hs : IsSortSliceResult results sorted)
    (h2 : 2 ≤ (results.filter acceptedAsStated).length) :
    ∃ r ∈ results, acceptedAsStated r = true ∧ selectFirst sorted = some r.Response ∧
      ∀ q ∈ results, acceptedAsStated q = true → r.Priority ≤ q.Priority := by
  have hfun : acceptedAsStated = accepted := by
    funext r
    exact (accepted_eq_acceptedAsStated r).symm
  rw [hfun] at h2 ⊢
  have hex : ∃ r ∈ results, accepted r = true := by
    match hl : results.filter accepted, h2 with
    | [], h => simp at h
    | x :: _, _ =>
      have hx : x ∈ results.filter accepted := by rw [hl]; exact List.mem_cons_self _ _
      exact ⟨x, (List.mem_filter.mp hx).1, (List.mem_filter.mp hx).2⟩
  exact selectFirst_of_sortResult results sorted hs hex

/-- C4 at three outcomes, two of them accepted with priorities 2 and 1. -/
theorem select_lowest_priority_witness :
    ∃ r ∈ ([⟨"a", 2, "<xml>a</xml>", 200, none⟩, ⟨"b", 0, "success", 200, none⟩,
        ⟨"c", 1, " <xml>c</xml> ", 200, none⟩] : List ForwardResult),
      acceptedAsStated r = true ∧
      selectFirst (insertionSort_func [⟨"a", 2, "<xml>a</xml>", 200, none⟩,
        ⟨"b", 0, "success", 200, none⟩, ⟨"c", 1, " <xml>c</xml> ", 200, none⟩])
        = some r.Response ∧
      ∀ q ∈ ([⟨"a", 2, "<xml>a</xml>", 200, none⟩, ⟨"b", 0, "success", 200, none⟩,
        ⟨"c", 1, " <xml>c</xml> ", 200, none⟩] : List ForwardResult),
        acceptedAsStated q = true → r.Priority ≤ q.Priority :=
  select_lowest_priority
    [⟨"a", 2, "<xml>a</xml>", 200, none⟩, ⟨"b", 0, "success", 200, none⟩,
      ⟨"c", 1, " <xml>c</xml> ", 200, none⟩]
    (insertionSort_func [⟨"a", 2, "<xml>a</xml>", 200, none⟩, ⟨"b", 0, "success", 200, none⟩,
      ⟨"c", 1, " <xml>c</xml> ", 200, none⟩])
    (insertionSort_func_isResult _) (by decide)

/-! ## Rejected bodies are never selected (C5) -/

/-- C5: for every collection of forwarding outcomes and every arrangement that
`sort.Slice` may produce, an outcome whose body is empty after trimming, is
exactly `success` after trimming, or does not start with `<xml>` after trimming
is never the one whose response is returned; if every outcome is of that kind
the result is no selection. -/
theorem rejected_body_never_selected (results sorted : List ForwardResult)
    (hs : IsSortSliceResult results sorted) :
    (∀ r ∈ results, rejectedBody r = true → selectFirst sorted ≠ some r.Response) ∧
    ((∀ r ∈ results, rejectedBody r = true) → selectFirst sorted = none) := by
  constructor
  · intro r _ hr hsel
    obtain ⟨q, -, hqa, hqr⟩ := selectFirst_some sorted r.Response hsel
    have hrej : rejectedBody q = true := by
      unfold rejectedBody at hr ⊢
      rw [hqr]
      exact hr
    rw [rejectedBody_not_accepted q hrej] at hqa
    cases hqa
  · intro hall
    apply selectFirst_none
    intro r hr
    exact rejectedBody_not_accepted r (hall r (hs.1.mem_iff.mp hr))

/-- C5 at outcomes whose bodies are empty, `success` and plain text. -/
theorem rejected_body_never_selected_witness :
    (∀ r ∈ ([⟨"a", 0, "", 200, none⟩, ⟨"b", 1, " success ", 200, none⟩,
        ⟨"c", 2, "ok <xml>", 200, none⟩] : List ForwardResult),
      rejectedBody r = true →
      selectFirst (insertionSort_func [⟨"a", 0, "", 200, none⟩, ⟨"b", 1, " success ", 200, none⟩,
        ⟨"c", 2, "ok <xml>", 200, none⟩]) ≠ some r.Response) ∧
    ((∀ r ∈ ([⟨"a", 0, "", 200, none⟩, ⟨"b", 1, " success ", 200, none⟩,
        ⟨"c", 2, "ok <xml>", 200, none⟩] : List ForwardResult), rejectedBody r = true) →
      selectFirst (insertionSort_func [⟨"a", 0, "", 200, none⟩, ⟨"b", 1, " success ", 200, none⟩,
        ⟨"c", 2, "ok <xml>", 200, none⟩]) = none) :=
  rejected_body_never_selected
    [⟨"a", 0, "", 200, none⟩, ⟨"b", 1, " success ", 200, none⟩, ⟨"c", 2, "ok <xml>", 200, none⟩]
    (insertionSort_func [⟨"a", 0, "", 200, none⟩, ⟨"b", 1, " success ", 200, none⟩,
      ⟨"c", 2, "ok <xml>", 200, none⟩])
    (insertionSort_func_isResult _)

/-! ## Eligibility of a target (C6) -/

theorem ToLower_eq_empty (caseTable : Char → Char) (s : String) :
    ToLower caseTable s = "" ↔ s = "" := by
  constructor
  · intro h
    cases s with
    | mk d =>
      unfold ToLower at h
      have hd : d.map (unicodeToLower caseTable) = [] := congrArg String.data h
      rw [List.map_eq_nil_iff] at hd
      rw [hd]
  · intro h
    rw [h]
    rfl

theorem eventTypeOf_test (caseTable : Char → Char) (msg : Message) (e : String) :
    (eventTypeOf caseTable msg ≠ "" ∧ e = eventTypeOf caseTable msg) ↔
      (msg.Event ≠ "" ∧ e = ToLower caseTable msg.Event) := by
  unfold eventTypeOf
  by_cases h : msg.Event = ""
  · simp [h]
  · have h2 : ToLower caseTable msg.Event ≠ "" :=
      fun e => h ((ToLower_eq_empty caseTable _).mp e)
    simp [h, h2]

/-- C6, as the code has it, for every case table of `strings.ToLower`: a target
is eligible exactly when its event filter is empty, or the filter with every
token trimmed and lower-cased contains `*`, `all`, the lower-cased message type,
or (for a message with a non-empty event token) the lower-cased event token;
the dispatch list holds exactly the eligible targets of the account. -/
theorem eligible_iff_normalized_filter (caseTable : Char → Char) (f : Forwarder)
    (msg : Message) (forwarders : List Forwarder) :
    (shouldForward caseTable f msg.MsgType (eventTypeOf caseTable msg) = true ↔
      f.Events = [] ∨ "*" ∈ normalizedEvents caseTable f ∨
      "all" ∈ normalizedEvents caseTable f ∨
      ToLower caseTable msg.MsgType ∈ normalizedEvents caseTable f ∨
      (msg.Event ≠ "" ∧ ToLower caseTable msg.Event ∈ normalizedEvents caseTable f)) ∧
    (f ∈ dispatchTargets caseTable forwarders msg ↔
      f ∈ forwarders ∧
        shouldForward caseTable f msg.MsgType (eventTypeOf caseTable msg) = true) := by
  constructor
  · unfold shouldForward normalizedEvents
    by_cases hemp : f.Events = []
    · simp [hemp]
    · have hlen : ¬ f.Events.length = 0 := fun h => hemp (List.length_eq_zero.mp h)
      rw [if_neg hlen]
      simp only [List.any_eq_true, List.mem_map, hemp, false_or]
      constructor
      · rintro ⟨e, he, h⟩
        by_cases h1 : ToLower caseTable (TrimSpace e) = "*" ∨
            ToLower caseTable (TrimSpace e) = "all"
        · rcases h1 with h1 | h1
          · exact Or.inl ⟨e, he, h1⟩
          · exact Or.inr (Or.inl ⟨e, he, h1⟩)
        · rw [if_neg h1] at h
          by_cases h2 : ToLower caseTable (TrimSpace e) = ToLower caseTable msg.MsgType
          · exact Or.inr (Or.inr (Or.inl ⟨e, he, h2⟩))
          · rw [if_neg h2] at h
            by_cases h3 : eventTypeOf caseTable msg ≠ "" ∧
                ToLower caseTable (TrimSpace e) = eventTypeOf caseTable msg
            · have h3' := (eventTypeOf_test caseTable msg _).mp h3
              exact Or.inr (Or.inr (Or.inr ⟨h3'.1, e, he, h3'.2⟩))
            · rw [if_neg h3] at h
              cases h
      · intro h
        rcases h with ⟨e, he, h⟩ | ⟨e, he, h⟩ | ⟨e, he, h⟩ | ⟨hne, e, he, h⟩
        · exact ⟨e, he, by rw [if_pos (Or.inl h)]⟩
        · exact ⟨e, he, by rw [if_pos (Or.inr h)]⟩
        · refine ⟨e, he, ?_⟩
          by_cases h1 : ToLower caseTable (TrimSpace e) = "*" ∨
              ToLower caseTable (TrimSpace e) = "all"
          · rw [if_pos h1]
          · rw [if_neg h1, if_pos h]
        · refine ⟨e, he, ?_⟩
          by_cases h1 : ToLower caseTable (TrimSpace e) = "*" ∨
              ToLower caseTable (TrimSpace e) = "all"
          · rw [if_pos h1]
          · rw [if_neg h1]
            by_cases h2 : ToLower caseTable (TrimSpace e) = ToLower caseTable msg.MsgType
            · rw [if_pos h2]
            · rw [if_neg h2, if_pos ((eventTypeOf_test caseTable msg _).mpr ⟨hne, h⟩)]
  · unfold dispatchTargets
    rw [List.mem_filter]

/-- C6 as stated fails for a filter whose token is padded with blanks: the code
trims and lower-cases every filter token before comparing, so the filter
`[" text "]` makes the target eligible for a `text` message although the filter
does not contain the token `text`. Every character involved is ASCII, so the
case table (here the identity) is never consulted. -/
theorem eligible_padded_token_counterexample :
    shouldForward id ⟨"t1", "http://t1", 1, 0, [" text "]⟩ (Message.mk "text" "").MsgType
      (eventTypeOf id (Message.mk "text" "")) = true ∧
    eligibleAsStated id ⟨"t1", "http://t1", 1, 0, [" text "]⟩ (Message.mk "text" "") = false :=
  ⟨by decide, by decide⟩

/-! ## Independence of the completion order (C7) -/

/-- C7, as the code has it: for every finite collection of forwarding outcomes
in which the accepted outcomes of the lowest accepted priority all carry the
same response bytes, every order in which the outcomes are collected and every
arrangement that `sort.Slice` may produce from it lead the selection walk to
the same response, or to no selection in both cases. -/
theorem selection_order_independent (results collected sorted1 sorted2 : List ForwardResult)
    (hperm : collected.Perm results)
    (h1 : IsSortSliceResult results sorted1) (h2 : IsSortSliceResult collected sorted2)
    (htie : ∀ a ∈ results, ∀ b ∈ results, accepted a = true → accepted b = true →
      (∀ q ∈ results, accepted q = true → a.Priority ≤ q.Priority) →
      a.Priority = b.Priority → a.Response = b.Response) :
    selectFirst sorted1 = selectFirst sorted2 := by
  have h2' : IsSortSliceResult results sorted2 := ⟨h2.1.trans hperm, h2.2⟩
  by_cases hex : ∃ r ∈ results, accepted r = true
  · obtain ⟨r1, hr1, ha1, hs1, hm1⟩ := selectFirst_of_sortResult results sorted1 h1 hex
    obtain ⟨r2, hr2, ha2, hs2, hm2⟩ := selectFirst_of_sortResult results sorted2 h2' hex
    have hp : r1.Priority = r2.Priority := le_antisymm (hm1 r2 hr2 ha2) (hm2 r1 hr1 ha1)
    rw [hs1, hs2, htie r1 hr1 r2 hr2 ha1 ha2 hm1 hp]
  · have hnone : ∀ l : List ForwardResult, l.Perm results → selectFirst l = none := by
      intro l hl
      apply selectFirst_none
      intro r hr
      cases ha : accepted r with
      | false => rfl
      | true => exact absurd ⟨r, hl.mem_iff.mp hr, ha⟩ hex
    rw [hnone sorted1 h1.1, hnone sorted2 h2'.1]

/-- C7 at four outcomes collected in two different orders: "b" and "c" tie at
priority 2 with different bodies, "a" and "d" tie at the lowest priority 1
with the same body. -/
theorem selection_order_independent_witness :
    selectFirst (insertionSort_func [⟨"a", 1, "<xml>a</xml>", 200, none⟩,
        ⟨"b", 2, "<xml>b</xml>", 200, none⟩, ⟨"c", 2, "<xml>c</xml>", 200, none⟩,
        ⟨"d", 1, "<xml>a</xml>", 200, none⟩])
      = selectFirst (insertionSort_func [⟨"c", 2, "<xml>c</xml>", 200, none⟩,
        ⟨"d", 1, "<xml>a</xml>", 200, none⟩, ⟨"b", 2, "<xml>b</xml>", 200, none⟩,
        ⟨"a", 1, "<xml>a</xml>", 200, none⟩]) :=
  selection_order_independent
    [⟨"a", 1, "<xml>a</xml>", 200, none⟩, ⟨"b", 2, "<xml>b</xml>", 200, none⟩,
      ⟨"c", 2, "<xml>c</xml>", 200, none⟩, ⟨"d", 1, "<xml>a</xml>", 200, none⟩]
    [⟨"c", 2, "<xml>c</xml>", 200, none⟩, ⟨"d", 1, "<xml>a</xml>", 200, none⟩,
      ⟨"b", 2, "<xml>b</xml>", 200, none⟩, ⟨"a", 1, "<xml>a</xml>", 200, none⟩]
    _ _ (by decide) (insertionSort_func_isResult _) (insertionSort_func_isResult _)
    (by decide)

/-- C7 as stated fails when two accepted outcomes share the lowest accepted
priority: the sort keeps the order of arrival among them, so collecting "a"
before "b" selects the response of "a" and collecting "b" before "a" selects
the response of "b". -/
theorem selection_tie_counterexample :
    List.Perm [(⟨"b", 1, "<xml>b</xml>", 200, none⟩ : ForwardResult),
        ⟨"a", 1, "<xml>a</xml>", 200, none⟩]
      [⟨"a", 1, "<xml>a</xml>", 200, none⟩, ⟨"b", 1, "<xml>b</xml>", 200, none⟩] ∧
    selectFirst (insertionSort_func
        [⟨"a", 1, "<xml>a</xml>", 200, none⟩, ⟨"b", 1, "<xml>b</xml>", 200, none⟩])
      = some "<xml>a</xml>" ∧
    selectFirst (insertionSort_func
        [⟨"b", 1, "<xml>b</xml>", 200, none⟩, ⟨"a", 1, "<xml>a</xml>", 200, none⟩])
      = some "<xml>b</xml>" ∧
    selectFirst (insertionSort_func
        [⟨"a", 1, "<xml>a</xml>", 200, none⟩, ⟨"b", 1, "<xml>b</xml>", 200, none⟩])
      ≠ selectFirst (insertionSort_func
        [⟨"b", 1, "<xml>b</xml>", 200, none⟩, ⟨"a", 1, "<xml>a</xml>", 200, none⟩]) :=
  ⟨List.Perm.swap _ _ _, by decide, by decide, by decide⟩

/-! ## The paired-map invariant (C11) -/

theorem reachable_of_reachableFresh {s : MemoryStore} (h : ReachableFresh s) : Reachable s := by
  induction h with
  | init => exact Reachable.init
  | generate cfg openID appID code rnd tc te _ hg _ ih =>
    have := Reachable.generate cfg openID appID rnd tc te ih
    rw [hg] at this
    exact this
  | verify code appID now _ ih => exact Reachable.verify code appID now ih
  | sweep order now _ hperm ih => exact Reachable.sweep order now ih hperm

theorem paired_empty : Paired emptyStore := by
  intro k c h
  simp [emptyStore, mapGet] at h

theorem paired_generate {s s' : MemoryStore} {cfg : CodeConfig} {openID appID code : String}
    {rnd : Nat → Nat} {tc te : Int} (hs : Paired s)
    (hg : GenerateCode s cfg openID appID rnd tc te = (s', some code))
    (hfresh : mapGet (codesAfterSupersede s (userKey openID appID)) code = none) :
    Paired s' := by
  obtain ⟨entry, ho, ha, -, -, -, hc, hu⟩ := GenerateCode_eq_some hg
  intro k c hk
  rw [hu, mapGet_mapSet] at hk
  rw [hc]
  by_cases hkk : k = userKey openID appID
  · rw [if_pos hkk] at hk
    cases hk
    refine ⟨entry, mapGet_mapSet_self _ _ _, ?_⟩
    rw [ho, ha, hkk]
  · rw [if_neg hkk] at hk
    obtain ⟨e, he, hek⟩ := hs k c hk
    have hcas : mapGet (codesAfterSupersede s (userKey openID appID)) c = some e := by
      unfold codesAfterSupersede
      cases hold : mapGet s.userCodes (userKey openID appID) with
      | none => exact he
      | some old =>
        simp only
        have hne : c ≠ old := by
          intro hco
          obtain ⟨e', he', hek'⟩ := hs _ old hold
          rw [hco, he'] at he
          cases he
          exact hkk (hek.symm.trans hek')
        rw [mapGet_mapDelete_ne _ _ _ hne]
        exact he
    have hcc : c ≠ code := by
      intro hcc
      rw [hcc, hfresh] at hcas
      cases hcas
    refine ⟨e, ?_, hek⟩
    rw [mapGet_mapSet_ne _ _ _ _ hcc]
    exact hcas

theorem deleteCodeLocked_userCodes_get {s : MemoryStore} {code k c : String} {entry : CodeEntry}
    (h : mapGet (deleteCodeLocked s code entry).userCodes k = some c) :
    mapGet s.userCodes k = some c ∧
      ¬ (k = userKey entry.OpenID entry.AppID ∧ c = code) := by
  unfold deleteCodeLocked at h
  by_cases hd : (mapGet s.userCodes (userKey entry.OpenID entry.AppID)).getD "" = code
  · rw [if_pos hd] at h
    simp only at h
    rw [mapGet_mapDelete] at h
    by_cases hk : k = userKey entry.OpenID entry.AppID
    · rw [if_pos hk] at h
      cases h
    · rw [if_neg hk] at h
      exact ⟨h, fun hh => hk hh.1⟩
  · rw [if_neg hd] at h
    refine ⟨h, ?_⟩
    rintro ⟨hk, hcc⟩
    apply hd
    rw [← hk, h, hcc]
    rfl

theorem paired_deleteCodeLocked {s : MemoryStore} (code : String) (entry : CodeEntry)
    (hs : Paired s) (h : mapGet s.codes code = some entry ∨ mapGet s.codes code = none) :
    Paired (deleteCodeLocked s code entry) := by
  intro k c hk
  obtain ⟨hk0, hnot⟩ := deleteCodeLocked_userCodes_get hk
  obtain ⟨e, he, hek⟩ := hs k c hk0
  have hcc : c ≠ code := by
    intro hcc
    rw [hcc] at he
    rcases h with h | h
    · rw [h] at he
      cases he
      exact hnot ⟨hek.symm, hcc⟩
    · rw [h] at he
      cases he
  refine ⟨e, ?_, hek⟩
  rw [deleteCodeLocked_codes, mapGet_mapDelete_ne _ _ _ hcc]
  exact he

theorem paired_verify {s : MemoryStore} (code appID : String) (now : Int) (hs : Paired s) :
    Paired (VerifyCode s code appID now).1 := by
  unfold VerifyCode
  cases h : mapGet s.codes code with
  | none => exact hs
  | some entry =>
    simp only
    split
    · exact paired_deleteCodeLocked code entry hs (Or.inl h)
    · split
      · exact hs
      · exact paired_deleteCodeLocked code entry hs (Or.inl h)

theorem paired_cleanupIn (order : List (String × CodeEntry)) (now : Int) :
    ∀ s : MemoryStore, Paired s →
      (∀ p ∈ order, mapGet s.codes p.1 = some p.2 ∨ mapGet s.codes p.1 = none) →
      Paired (cleanupIn order s now) := by
  induction order with
  | nil => intro s hs _; exact hs
  | cons p rest ih =>
    intro s hs hord
    unfold cleanupIn
    rw [List.foldl_cons]
    by_cases hexp : After now p.2.ExpiresAt = true
    · rw [if_pos hexp]
      apply ih
      · exact paired_deleteCodeLocked p.1 p.2 hs (hord p (List.mem_cons_self _ _))
      · intro q hq
        rw [deleteCodeLocked_codes, mapGet_mapDelete]
        by_cases hqp : q.1 = p.1
        · right
          rw [if_pos hqp]
        · rw [if_neg hqp]
          exact hord q (List.mem_cons_of_mem _ hq)
    · rw [if_neg hexp]
      apply ih s hs
      intro q hq
      exact hord q (List.mem_cons_of_mem _ hq)

/-- C11, as the code has it: in every store state reachable from the empty
store by `VerifyCode`, cleanup steps and calls of `GenerateCode` that return a
code not already held by the primary map (once the superseded code is removed),
every index entry (`user:account` to code) points at a code that is present in
the primary map and whose entry has that same `user:account` key. -/
theorem reachableFresh_paired (s : MemoryStore) (h : ReachableFresh s) : Paired s := by
  induction h with
  | init => exact paired_empty
  | generate cfg openID appID code rnd tc te _ hg hfresh ih => exact paired_generate ih hg hfresh
  | verify code appID now _ ih => exact paired_verify code appID now ih
  | sweep order now hr hperm ih =>
    apply paired_cleanupIn order now _ ih
    intro p hp
    left
    exact mapGet_of_mem _ (indexed_of_reachable (reachable_of_reachableFresh hr)).1 p.1 p.2
      (hperm.mem_iff.mp hp)

/-- C11 at the store reached by one issue for ("U1", "acct1"). -/
theorem reachableFresh_paired_witness :
    Paired ⟨[("000000", ⟨"U1", "acct1", "000000", 10, 300000000010⟩)],
      [("U1:acct1", "000000")]⟩ :=
  reachableFresh_paired
    ⟨[("000000", ⟨"U1", "acct1", "000000", 10, 300000000010⟩)], [("U1:acct1", "000000")]⟩
    (ReachableFresh.generate ⟨6, 5⟩ "U1" "acct1" "000000" (fun _ => 0) 10 10
      ReachableFresh.init (by decide) (by decide))

/-- C11 as stated fails after a collision of codes: ("U1", "acct1") is issued
"000000", then ("U2", "acct2") draws "000000" as well and takes over the primary
entry; the index entry of "U1:acct1" still points at "000000", whose entry now
belongs to ("U2", "acct2"). -/
theorem paired_collision_counterexample :
    GenerateCode emptyStore ⟨6, 5⟩ "U1" "acct1" (fun _ => 0) 10 10 =
      (⟨[("000000", ⟨"U1", "acct1", "000000", 10, 300000000010⟩)],
        [("U1:acct1", "000000")]⟩, some "000000") ∧
    GenerateCode ⟨[("000000", ⟨"U1", "acct1", "000000", 10, 300000000010⟩)],
        [("U1:acct1", "000000")]⟩ ⟨6, 5⟩ "U2" "acct2" (fun _ => 0) 20 20 =
      (⟨[("000000", ⟨"U2", "acct2", "000000", 20, 300000000020⟩)],
        [("U2:acct2", "000000"), ("U1:acct1", "000000")]⟩, some "000000") ∧
    Reachable ⟨[("000000", ⟨"U2", "acct2", "000000", 20, 300000000020⟩)],
        [("U2:acct2", "000000"), ("U1:acct1", "000000")]⟩ ∧
    ¬ Paired ⟨[("000000", ⟨"U2", "acct2", "000000", 20, 300000000020⟩)],
        [("U2:acct2", "000000"), ("U1:acct1", "000000")]⟩ :=
  ⟨by decide, by decide,
   Reachable.generate ⟨6, 5⟩ "U2" "acct2" (fun _ => 0) 20 20
     (Reachable.generate ⟨6, 5⟩ "U1" "acct1" (fun _ => 0) 10 10 Reachable.init),
   fun h => by
     obtain ⟨e, he, hkey⟩ := h "U1:acct1" "000000" (by decide)
     have h0 : mapGet ([("000000", (⟨"U2", "acct2", "000000", 20, 300000000020⟩ : CodeEntry))])
         "000000" = some ⟨"U2", "acct2", "000000", 20, 300000000020⟩ := by decide
     have hee : e = ⟨"U2", "acct2", "000000", 20, 300000000020⟩ :=
       Option.some.inj (he.symm.trans h0)
     rw [hee] at hkey
     exact absurd hkey (by decide)⟩

end WechatServer

